import Mathlib

/-!
Shallow embedding of the feedback-driven style-tuning core of
`app_calligraphy.py`: the SQLite event store (the `generations` and
`feedback` tables and the queries `training_job` runs on them), the
persisted tuning state (`load_tuning` / `save_tuning` over
`models/style_tuning.json`), and the periodic `training_job` that
aggregates feedback per emotion category and moves the tuning weights by
an exponential-moving-average rule.

Python floats are modelled by exact rationals, the JSON tuning dict by an
association list over the six emotion labels, and the filesystem by the
optional stored dict together with a counter of writes to the file.
-/

namespace Calligraphy

/-- The six emotion categories of `EMO_LABELS`
    (기쁨, 슬픔, 분노, 평온, 열정, 냉정). -/
inductive EmoLabel where
  | joy
  | sad
  | anger
  | calm
  | passion
  | cold
  deriving DecidableEq, Fintype

/-- `EMO_LABELS`, in source order. -/
def EMO_LABELS : List EmoLabel :=
  [.joy, .sad, .anger, .calm, .passion, .cold]

/-- A row of the `generations` table: the id together with the decoded
    `emo_json` score dict (a total map on the six labels, the shape
    `analyze_emotion` produces). Text, style and timestamp play no role
    in the tuning loop and are omitted. -/
structure Generation where
  gid : Nat
  emo : EmoLabel → ℚ

/-- A row of the `feedback` table. -/
structure Feedback where
  fid : Nat
  generation_id : Nat
  satisfied : Bool
  deriving DecidableEq

/-- The SQLite database state; ids autoincrement from 1. -/
structure DB where
  generations : List Generation
  feedback : List Feedback
  nextGenId : Nat
  nextFbId : Nat

/-- The freshly initialised database. -/
def DB.empty : DB := ⟨[], [], 1, 1⟩

/-- `save_generation_record`: INSERT INTO generations, returning
    `cur.lastrowid`. -/
def save_generation_record (db : DB) (emo : EmoLabel → ℚ) : Nat × DB :=
  (db.nextGenId,
    { db with
        generations := db.generations ++ [⟨db.nextGenId, emo⟩],
        nextGenId := db.nextGenId + 1 })

/-- `save_feedback`: INSERT INTO feedback. The `generation_id` is stored
    without being validated against the `generations` table. -/
def save_feedback (db : DB) (generation_id : Nat) (satisfied : Bool) : DB :=
  { db with
      feedback := db.feedback ++ [⟨db.nextFbId, generation_id, satisfied⟩],
      nextFbId := db.nextFbId + 1 }

/-- The query `SELECT g.emo_json, f.satisfied FROM feedback f JOIN
    generations g ON g.id = f.generation_id` run by `training_job`: an
    inner join, yielding one row per feedback record whose referenced
    generation exists. -/
def list_feedback_with_emotion (db : DB) : List ((EmoLabel → ℚ) × Bool) :=
  db.feedback.filterMap fun f =>
    (db.generations.find? fun g => g.gid == f.generation_id).map
      fun g => (g.emo, f.satisfied)

/-- The decoded `style_tuning.json` dict: an association list keyed by
    emotion labels, in file order. -/
abbrev TuningMap := List (EmoLabel × ℚ)

/-- `d.get(k, dflt)` on a Python dict. -/
def dictGet : TuningMap → EmoLabel → ℚ → ℚ
  | [], _, dflt => dflt
  | (k', v) :: d, k, dflt => if k' = k then v else dictGet d k dflt

/-- `d[k] = v` on a Python dict: replace the value in place when the key
    is present, append the pair otherwise. -/
def dictSet : TuningMap → EmoLabel → ℚ → TuningMap
  | [], k, v => [(k, v)]
  | (k', v') :: d, k, v =>
      if k' = k then (k, v) :: d else (k', v') :: dictSet d k v

/-- The key list of the dict. -/
def dictKeys (d : TuningMap) : List EmoLabel := d.map Prod.fst

/-- The dict `load_tuning` writes when the file is absent: every label at
    weight 1.0. -/
def initTuning : TuningMap := EMO_LABELS.map fun k => (k, 1)

/-- The filesystem as the tuning subsystem sees it: the content of
    `style_tuning.json` when it exists, plus a count of writes to it. -/
structure FS where
  tuning : Option TuningMap
  writes : Nat
  deriving DecidableEq

/-- `load_tuning`: return the stored dict if the file exists; otherwise
    initialise all six weights to 1.0, write that to the file, and return
    it. -/
def load_tuning (fs : FS) : TuningMap × FS :=
  match fs.tuning with
  | some t => (t, fs)
  | none => (initTuning, ⟨some initTuning, fs.writes + 1⟩)

/-- `save_tuning`: overwrite the file with the given dict. -/
def save_tuning (t : TuningMap) (fs : FS) : FS :=
  ⟨some t, fs.writes + 1⟩

/-- `float(sat)` for the stored 0/1 satisfaction flag. -/
def satVal (b : Bool) : ℚ := if b then 1 else 0

/-- `emo.items()`: the score dict built by `analyze_emotion` lists the six
    labels in `EMO_LABELS` insertion order. -/
def emoItems (e : EmoLabel → ℚ) : List (EmoLabel × ℚ) :=
  EMO_LABELS.map fun k => (k, e k)

/-- Insert an entry into a descending-sorted list, after every entry whose
    score is ≥ the new one — the position Python's stable descending sort
    assigns to elements taken left to right. -/
def insertDesc (x : EmoLabel × ℚ) : List (EmoLabel × ℚ) → List (EmoLabel × ℚ)
  | [] => [x]
  | y :: l => if y.2 < x.2 then x :: y :: l else y :: insertDesc x l

/-- `sorted(emo.items(), key=lambda x: x[1], reverse=True)`: stable
    descending sort, as a left fold of insertions. -/
def sortDesc (l : List (EmoLabel × ℚ)) : List (EmoLabel × ℚ) :=
  l.foldl (fun acc x => insertDesc x acc) []

/-- The top entries kept per feedback row:
    `sorted(emo.items(), key=lambda x: x[1], reverse=True)[:2]`. -/
def top2 (e : EmoLabel → ℚ) : List (EmoLabel × ℚ) :=
  (sortDesc (emoItems e)).take 2

/-- Pointwise update of a score accumulator (`emo_sum[k] += ...`). -/
def fupd (f : EmoLabel → ℚ) (k : EmoLabel) (v : ℚ) : EmoLabel → ℚ :=
  fun k' => if k' = k then v else f k'

/-- The inner loop of `training_job`: fold one feedback row's top-2
    entries into the pair (`emo_sum`, `emo_cnt`). -/
def accumRow (sc : (EmoLabel → ℚ) × (EmoLabel → ℚ))
    (row : (EmoLabel → ℚ) × Bool) : (EmoLabel → ℚ) × (EmoLabel → ℚ) :=
  (top2 row.1).foldl
    (fun sc p =>
      (fupd sc.1 p.1 (sc.1 p.1 + p.2 * satVal row.2),
       fupd sc.2 p.1 (sc.2 p.1 + p.2)))
    sc

/-- `emo_sum` and `emo_cnt` after the loop over all fetched rows. -/
def accum (rows : List ((EmoLabel → ℚ) × Bool)) :
    (EmoLabel → ℚ) × (EmoLabel → ℚ) :=
  rows.foldl accumRow (fun _ => 0, fun _ => 0)

/-- `sat_rate[k]`: numerator over denominator when the denominator is
    positive, the neutral 0.5 otherwise. -/
def satRate (rows : List ((EmoLabel → ℚ) × Bool)) (k : EmoLabel) : ℚ :=
  if 0 < (accum rows).2 k then (accum rows).1 k / (accum rows).2 k
  else 1/2

/-- `training_job`: fetch the feedback–generation join; if it is empty,
    return immediately; otherwise compute per-label satisfaction rates,
    load the tuning dict, set every label's weight to
    `0.8 * tuning.get(k, 1.0) + 0.2 * (0.9 + 0.2 * sat_rate[k])`, and
    save the dict. -/
def training_job (db : DB) (fs : FS) : FS :=
  let rows := list_feedback_with_emotion db
  if rows.isEmpty then fs
  else
    let p := load_tuning fs
    let t :=
      EMO_LABELS.foldl
        (fun acc k =>
          dictSet acc k
            (0.8 * dictGet acc k 1 + 0.2 * (0.9 + 0.2 * satRate rows k)))
        p.1
    save_tuning t p.2

/-- One external call into the event store. -/
inductive Op where
  | gen (emo : EmoLabel → ℚ)
  | fb (generation_id : Nat) (satisfied : Bool)

/-- Apply one store call. -/
def applyOp (db : DB) : Op → DB
  | .gen emo => (save_generation_record db emo).2
  | .fb gid sat => save_feedback db gid sat

/-- The database produced by a sequence of store calls. -/
def runOps (ops : List Op) : DB := ops.foldl applyOp DB.empty

/-- Spec-side contribution of one feedback row to label `k`'s numerator:
    `score * satisfied` summed over the row's top-2 entries at `k`. -/
def rowNum (k : EmoLabel) (row : (EmoLabel → ℚ) × Bool) : ℚ :=
  ((top2 row.1).map fun p => if p.1 = k then p.2 * satVal row.2 else 0).sum

/-- Spec-side contribution of one feedback row to label `k`'s
    denominator. -/
def rowCnt (k : EmoLabel) (row : (EmoLabel → ℚ) × Bool) : ℚ :=
  ((top2 row.1).map fun p => if p.1 = k then p.2 else 0).sum

/-- Spec-side per-label numerator accumulated over all feedback. -/
def specNum (rows : List ((EmoLabel → ℚ) × Bool)) (k : EmoLabel) : ℚ :=
  (rows.map (rowNum k)).sum

/-- Spec-side per-label denominator accumulated over all feedback. -/
def specCnt (rows : List ((EmoLabel → ℚ) × Bool)) (k : EmoLabel) : ℚ :=
  (rows.map (rowCnt k)).sum

/-- The weight the persisted state assigns label `k`, read the way
    `tuning.get(k, 1.0)` reads it. -/
def weightAt (fs : FS) (k : EmoLabel) : ℚ :=
  dictGet (fs.tuning.getD []) k 1

/-- Tuning dicts the program persists: the dict `load_tuning` writes at
    first load, and every dict a `training_job` run leaves persisted
    starting from a reachable one. -/
inductive ReachableTuning : TuningMap → Prop where
  | init : ReachableTuning initTuning
  | step (db : DB) (t u : TuningMap) (n : Nat) :
      ReachableTuning t →
      (training_job db ⟨some t, n⟩).tuning = some u →
      ReachableTuning u

/-- A sequence of updater runs, each over its own database snapshot. -/
def runAll (dbs : List DB) (fs : FS) : FS :=
  dbs.foldl (fun s db => training_job db s) fs

/-- All emotion scores stored in the database are nonnegative (true of
    every dict `analyze_emotion` produces). -/
def DB.nonneg (db : DB) : Prop :=
  ∀ g ∈ db.generations, ∀ k, 0 ≤ g.emo k

/-- A score dict fully concentrated on 기쁨 (joy). -/
def emoJoy : EmoLabel → ℚ := fun k => if k = .joy then 1 else 0

/-- Event store holding one generation scored by `emoJoy` and ten
    satisfied feedback events referencing it. -/
def dbJoy : DB :=
  runOps (Op.gen emoJoy :: List.replicate 10 (Op.fb 1 true))

/-- Event store holding a single feedback record that references a
    generation id for which no generation exists. -/
def dbOrphan : DB := runOps [Op.fb 7 true]

/-- Event store holding one generation and no feedback at all. -/
def dbNoFeedback : DB := runOps [Op.gen emoJoy]

/-- Filesystem holding the freshly initialised tuning dict. -/
def fsInit : FS := ⟨some initTuning, 1⟩

/-- Filesystem whose stored dict gives 기쁨 the weight 1.05 and every
    other label 1.0. -/
def fsShift : FS := ⟨some (dictSet initTuning .joy 1.05), 0⟩

/-- The emotion data of the generation a feedback record references: what
    the join's `g.emo_json` column decodes to for that row (zero scores
    when no such generation exists and the join yields no row). -/
def emoOf (db : DB) (gid : Nat) : EmoLabel → ℚ :=
  ((db.generations.find? fun g => g.gid == gid).map Generation.emo).getD
    fun _ => 0

/-! ### Dictionary lemmas -/

theorem dictGet_dictSet_self (d : TuningMap) (k : EmoLabel) (v dflt : ℚ) :
    dictGet (dictSet d k v) k dflt = v := by
  induction d with
  | nil => simp [dictGet, dictSet]
  | cons p d ih =>
    obtain ⟨k', v'⟩ := p
    by_cases h : k' = k
    · subst h; simp [dictSet, dictGet]
    · simp [dictSet, dictGet, h, ih]

theorem dictGet_dictSet_ne (d : TuningMap) (k k' : EmoLabel) (v dflt : ℚ)
    (h : k' ≠ k) : dictGet (dictSet d k v) k' dflt = dictGet d k' dflt := by
  induction d with
  | nil => simp [dictGet, dictSet, Ne.symm h]
  | cons p d ih =>
    obtain ⟨a, b⟩ := p
    by_cases ha : a = k
    · subst ha; simp [dictSet, dictGet, Ne.symm h]
    · simp [dictSet, dictGet, ha, ih]

theorem dictKeys_dictSet_mem (d : TuningMap) (k : EmoLabel) (v : ℚ)
    (h : k ∈ dictKeys d) : dictKeys (dictSet d k v) = dictKeys d := by
  induction d with
  | nil => simp [dictKeys] at h
  | cons p d ih =>
    obtain ⟨a, b⟩ := p
    by_cases ha : a = k
    · subst ha; simp [dictSet, dictKeys]
    · have hd : k ∈ dictKeys d := by
        simpa [dictKeys, Ne.symm ha] using h
      simp [dictSet, dictKeys, ha]
      simpa [dictKeys] using ih hd

theorem dictGet_initTuning (k : EmoLabel) : dictGet initTuning k 1 = 1 := by
  cases k <;> rfl

theorem dictKeys_initTuning : dictKeys initTuning = EMO_LABELS := rfl

/-! ### Folding `dictSet` over the label list -/

theorem foldl_dictSet_get_notMem (f : EmoLabel → ℚ → ℚ) (l : List EmoLabel)
    (t : TuningMap) (k : EmoLabel) (dflt : ℚ) (hk : k ∉ l) :
    dictGet
      (l.foldl (fun acc k' => dictSet acc k' (f k' (dictGet acc k' 1))) t)
      k dflt = dictGet t k dflt := by
  induction l generalizing t with
  | nil => rfl
  | cons a l ih =>
    simp only [List.foldl_cons]
    have hka : k ≠ a := fun hh => hk (hh ▸ List.mem_cons_self a l)
    rw [ih _ fun hm => hk (List.mem_cons_of_mem a hm),
      dictGet_dictSet_ne _ _ _ _ _ hka]

theorem foldl_dictSet_get_mem (f : EmoLabel → ℚ → ℚ) (l : List EmoLabel)
    (t : TuningMap) (k : EmoLabel) (hnd : l.Nodup) (hk : k ∈ l) :
    dictGet
      (l.foldl (fun acc k' => dictSet acc k' (f k' (dictGet acc k' 1))) t)
      k 1 = f k (dictGet t k 1) := by
  induction l generalizing t with
  | nil => cases hk
  | cons a l ih =>
    simp only [List.foldl_cons]
    rcases List.mem_cons.mp hk with h | h
    · subst h
      have hnotin : k ∉ l := (List.nodup_cons.mp hnd).1
      rw [foldl_dictSet_get_notMem f l _ k 1 hnotin, dictGet_dictSet_self]
    · have hka : k ≠ a := fun hh => (List.nodup_cons.mp hnd).1 (hh ▸ h)
      rw [ih _ (List.nodup_cons.mp hnd).2 h,
        dictGet_dictSet_ne _ _ _ _ _ hka]

theorem dictKeys_foldl_dictSet (f : EmoLabel → ℚ → ℚ) (l : List EmoLabel)
    (t : TuningMap) (hl : ∀ k ∈ l, k ∈ dictKeys t) :
    dictKeys
      (l.foldl (fun acc k' => dictSet acc k' (f k' (dictGet acc k' 1))) t)
      = dictKeys t := by
  induction l generalizing t with
  | nil => rfl
  | cons a l ih =>
    simp only [List.foldl_cons]
    have hset := dictKeys_dictSet_mem t a (f a (dictGet t a 1))
      (hl a (List.mem_cons_self a l))
    rw [ih _ fun k hk => hset ▸ hl k (List.mem_cons_of_mem a hk), hset]

/-! ### The shape of a `training_job` run -/

theorem training_job_of_empty (db : DB) (fs : FS)
    (h : (list_feedback_with_emotion db).isEmpty = true) :
    training_job db fs = fs := by
  simp [training_job, h]

theorem training_job_some (db : DB) (fs : FS) (t : TuningMap)
    (ht : fs.tuning = some t)
    (hne : (list_feedback_with_emotion db).isEmpty = false) :
    training_job db fs =
      ⟨some (EMO_LABELS.foldl
          (fun acc k => dictSet acc k
            (0.8 * dictGet acc k 1 +
              0.2 * (0.9 + 0.2 * satRate (list_feedback_with_emotion db) k)))
          t),
        fs.writes + 1⟩ := by
  obtain ⟨tu, w⟩ := fs
  cases ht
  simp [training_job, hne, load_tuning, save_tuning]

theorem weightAt_some (t : TuningMap) (w : Nat) (k : EmoLabel) :
    weightAt ⟨some t, w⟩ k = dictGet t k 1 := rfl

theorem training_job_weight (db : DB) (fs : FS) (k : EmoLabel)
    (hne : (list_feedback_with_emotion db).isEmpty = false) :
    weightAt (training_job db fs) k =
      0.8 * weightAt fs k +
        0.2 * (0.9 + 0.2 * satRate (list_feedback_with_emotion db) k) := by
  have hmem : k ∈ EMO_LABELS := by cases k <;> decide
  have hnd : EMO_LABELS.Nodup := by decide
  obtain ⟨tu, w⟩ := fs
  cases tu with
  | some t =>
    rw [training_job_some db ⟨some t, w⟩ t rfl hne, weightAt_some,
      weightAt_some]
    exact foldl_dictSet_get_mem
      (fun k v =>
        0.8 * v + 0.2 * (0.9 + 0.2 * satRate (list_feedback_with_emotion db) k))
      EMO_LABELS t k hnd hmem
  | none =>
    have hrun : training_job db ⟨none, w⟩ =
        ⟨some (EMO_LABELS.foldl
            (fun acc k => dictSet acc k
              (0.8 * dictGet acc k 1 +
                0.2 * (0.9 + 0.2 * satRate (list_feedback_with_emotion db) k)))
            initTuning),
          w + 2⟩ := by
      simp [training_job, hne, load_tuning, save_tuning]
    have hval := foldl_dictSet_get_mem
      (fun k v =>
        0.8 * v + 0.2 * (0.9 + 0.2 * satRate (list_feedback_with_emotion db) k))
      EMO_LABELS initTuning k hnd hmem
    rw [hrun, weightAt_some,
      show weightAt ⟨none, w⟩ k = 1 from rfl]
    simpa [dictGet_initTuning k] using hval

/-! ### The accumulator loop computes the spec-side sums -/

theorem specNum_cons (row : (EmoLabel → ℚ) × Bool)
    (rows : List ((EmoLabel → ℚ) × Bool)) (k : EmoLabel) :
    specNum (row :: rows) k = rowNum k row + specNum rows k := by
  simp [specNum]

theorem specCnt_cons (row : (EmoLabel → ℚ) × Bool)
    (rows : List ((EmoLabel → ℚ) × Bool)) (k : EmoLabel) :
    specCnt (row :: rows) k = rowCnt k row + specCnt rows k := by
  simp [specCnt]

theorem innerFold_get (sat : Bool) (l : List (EmoLabel × ℚ))
    (s c : EmoLabel → ℚ) (k : EmoLabel) :
    ((l.foldl (fun sc p =>
        (fupd sc.1 p.1 (sc.1 p.1 + p.2 * satVal sat),
         fupd sc.2 p.1 (sc.2 p.1 + p.2))) (s, c)).1 k
      = s k + (l.map fun p => if p.1 = k then p.2 * satVal sat else 0).sum) ∧
    ((l.foldl (fun sc p =>
        (fupd sc.1 p.1 (sc.1 p.1 + p.2 * satVal sat),
         fupd sc.2 p.1 (sc.2 p.1 + p.2))) (s, c)).2 k
      = c k + (l.map fun p => if p.1 = k then p.2 else 0).sum) := by
  induction l generalizing s c with
  | nil => simp
  | cons p l ih =>
    simp only [List.foldl_cons, List.map_cons, List.sum_cons]
    obtain ⟨hs, hc⟩ :=
      ih (fupd s p.1 (s p.1 + p.2 * satVal sat)) (fupd c p.1 (c p.1 + p.2))
    constructor
    · rw [hs]
      by_cases h : p.1 = k
      · subst h; simp [fupd, add_assoc]
      · simp [fupd, Ne.symm h, h]
    · rw [hc]
      by_cases h : p.1 = k
      · subst h; simp [fupd, add_assoc]
      · simp [fupd, Ne.symm h, h]

theorem accumRow_get (s c : EmoLabel → ℚ) (row : (EmoLabel → ℚ) × Bool)
    (k : EmoLabel) :
    (accumRow (s, c) row).1 k = s k + rowNum k row ∧
    (accumRow (s, c) row).2 k = c k + rowCnt k row :=
  innerFold_get row.2 (top2 row.1) s c k

theorem accum_foldl_get (rows : List ((EmoLabel → ℚ) × Bool))
    (s c : EmoLabel → ℚ) (k : EmoLabel) :
    ((rows.foldl accumRow (s, c)).1 k = s k + specNum rows k) ∧
    ((rows.foldl accumRow (s, c)).2 k = c k + specCnt rows k) := by
  induction rows generalizing s c with
  | nil => simp [specNum, specCnt]
  | cons row rows ih =>
    have hrow := accumRow_get s c row k
    have hih := ih (accumRow (s, c) row).1 (accumRow (s, c) row).2
    have hfold : (row :: rows).foldl accumRow (s, c) =
        rows.foldl accumRow
          ((accumRow (s, c) row).1, (accumRow (s, c) row).2) := rfl
    constructor
    · rw [hfold, hih.1, hrow.1, specNum_cons, add_assoc]
    · rw [hfold, hih.2, hrow.2, specCnt_cons, add_assoc]

theorem accum_get (rows : List ((EmoLabel → ℚ) × Bool)) (k : EmoLabel) :
    (accum rows).1 k = specNum rows k ∧ (accum rows).2 k = specCnt rows k := by
  have h := accum_foldl_get rows (fun _ => 0) (fun _ => 0) k
  exact ⟨by simpa [accum] using h.1, by simpa [accum] using h.2⟩

theorem satRate_eq_spec (rows : List ((EmoLabel → ℚ) × Bool)) (k : EmoLabel) :
    satRate rows k =
      if 0 < specCnt rows k then specNum rows k / specCnt rows k
      else 1/2 := by
  have h := accum_get rows k
  simp only [satRate, h.1, h.2]

/-! ### The descending sort -/

theorem mem_insertDesc {x y : EmoLabel × ℚ} {l : List (EmoLabel × ℚ)} :
    y ∈ insertDesc x l ↔ y = x ∨ y ∈ l := by
  induction l with
  | nil => simp [insertDesc]
  | cons a l ih =>
    by_cases h : a.2 < x.2
    · simp [insertDesc, h, List.mem_cons]
    · simp only [insertDesc, if_neg h, List.mem_cons, ih]
      tauto

theorem insertDesc_perm (x : EmoLabel × ℚ) (l : List (EmoLabel × ℚ)) :
    List.Perm (insertDesc x l) (x :: l) := by
  induction l with
  | nil => exact List.Perm.refl _
  | cons a l ih =>
    by_cases h : a.2 < x.2
    · simp [insertDesc, h]
    · simp only [insertDesc, if_neg h]
      exact (ih.cons a).trans (List.Perm.swap x a l)

theorem sortDesc_perm (l : List (EmoLabel × ℚ)) :
    List.Perm (sortDesc l) l := by
  suffices h : ∀ acc : List (EmoLabel × ℚ),
      List.Perm (l.foldl (fun acc x => insertDesc x acc) acc) (acc ++ l) by
    simpa [sortDesc] using h []
  induction l with
  | nil => intro acc; simp
  | cons a l ih =>
    intro acc
    simp only [List.foldl_cons]
    have h1 := ih (insertDesc a acc)
    have h2 : List.Perm (insertDesc a acc ++ l) (a :: (acc ++ l)) :=
      (insertDesc_perm a acc).append_right l
    have h3 : List.Perm (acc ++ a :: l) (a :: (acc ++ l)) := List.perm_middle
    exact (h1.trans h2).trans h3.symm

theorem sorted_insertDesc {l : List (EmoLabel × ℚ)} (x : EmoLabel × ℚ)
    (h : l.Sorted fun p q => q.2 ≤ p.2) :
    (insertDesc x l).Sorted fun p q => q.2 ≤ p.2 := by
  induction l with
  | nil => simp [insertDesc]
  | cons a l ih =>
    rw [List.sorted_cons] at h
    by_cases hx : a.2 < x.2
    · simp only [insertDesc, if_pos hx]
      rw [List.sorted_cons]
      refine ⟨?_, List.sorted_cons.mpr h⟩
      intro b hb
      rcases List.mem_cons.mp hb with rfl | hb
      · exact le_of_lt hx
      · exact le_trans (h.1 b hb) (le_of_lt hx)
    · simp only [insertDesc, if_neg hx]
      rw [List.sorted_cons]
      refine ⟨?_, ih h.2⟩
      intro b hb
      rcases mem_insertDesc.mp hb with rfl | hb
      · exact not_lt.mp hx
      · exact h.1 b hb

theorem sortDesc_sorted (l : List (EmoLabel × ℚ)) :
    (sortDesc l).Sorted fun p q => q.2 ≤ p.2 := by
  suffices h : ∀ acc : List (EmoLabel × ℚ),
      acc.Sorted (fun p q => q.2 ≤ p.2) →
      (l.foldl (fun acc x => insertDesc x acc) acc).Sorted
        fun p q => q.2 ≤ p.2 by
    exact h [] (by simp)
  induction l with
  | nil => intro acc hs; simpa using hs
  | cons a l ih =>
    intro acc hs
    simp only [List.foldl_cons]
    exact ih _ (sorted_insertDesc a hs)

theorem mem_top2 {e : EmoLabel → ℚ} {p : EmoLabel × ℚ} (h : p ∈ top2 e) :
    p ∈ emoItems e :=
  (sortDesc_perm (emoItems e)).mem_iff.mp (List.take_subset 2 _ h)

theorem snd_nonneg_of_mem_emoItems {e : EmoLabel → ℚ} (he : ∀ k, 0 ≤ e k)
    {p : EmoLabel × ℚ} (h : p ∈ emoItems e) : 0 ≤ p.2 := by
  unfold emoItems at h
  rw [List.mem_map] at h
  obtain ⟨k, _, rfl⟩ := h
  exact he k

/-! ### Bounds on the satisfaction rate -/

theorem satVal_nonneg (b : Bool) : 0 ≤ satVal b := by
  cases b <;> norm_num [satVal]

theorem satVal_le_one (b : Bool) : satVal b ≤ 1 := by
  cases b <;> norm_num [satVal]

theorem rowNum_nonneg {row : (EmoLabel → ℚ) × Bool}
    (h : ∀ k', 0 ≤ row.1 k') (k : EmoLabel) : 0 ≤ rowNum k row := by
  apply List.sum_nonneg
  intro x hx
  rw [List.mem_map] at hx
  obtain ⟨p, hp, rfl⟩ := hx
  split
  · exact mul_nonneg (snd_nonneg_of_mem_emoItems h (mem_top2 hp))
      (satVal_nonneg _)
  · exact le_refl 0

theorem rowCnt_nonneg {row : (EmoLabel → ℚ) × Bool}
    (h : ∀ k', 0 ≤ row.1 k') (k : EmoLabel) : 0 ≤ rowCnt k row := by
  apply List.sum_nonneg
  intro x hx
  rw [List.mem_map] at hx
  obtain ⟨p, hp, rfl⟩ := hx
  split
  · exact snd_nonneg_of_mem_emoItems h (mem_top2 hp)
  · exact le_refl 0

theorem rowNum_le_rowCnt {row : (EmoLabel → ℚ) × Bool}
    (h : ∀ k', 0 ≤ row.1 k') (k : EmoLabel) :
    rowNum k row ≤ rowCnt k row := by
  apply List.sum_le_sum
  intro p hp
  by_cases hc : p.1 = k
  · simp only [hc, if_pos rfl]
    calc p.2 * satVal row.2
        ≤ p.2 * 1 := mul_le_mul_of_nonneg_left (satVal_le_one _)
          (snd_nonneg_of_mem_emoItems h (mem_top2 hp))
      _ = p.2 := mul_one _
  · simp [hc]

theorem specNum_nonneg (rows : List ((EmoLabel → ℚ) × Bool))
    (h : ∀ row ∈ rows, ∀ k', 0 ≤ row.1 k') (k : EmoLabel) :
    0 ≤ specNum rows k := by
  apply List.sum_nonneg
  intro x hx
  rw [List.mem_map] at hx
  obtain ⟨row, hrow, rfl⟩ := hx
  exact rowNum_nonneg (h row hrow) k

theorem specNum_le_specCnt (rows : List ((EmoLabel → ℚ) × Bool))
    (h : ∀ row ∈ rows, ∀ k', 0 ≤ row.1 k') (k : EmoLabel) :
    specNum rows k ≤ specCnt rows k := by
  apply List.sum_le_sum
  intro row hrow
  exact rowNum_le_rowCnt (h row hrow) k

theorem satRate_bounds (rows : List ((EmoLabel → ℚ) × Bool)) (k : EmoLabel)
    (h : ∀ row ∈ rows, ∀ k', 0 ≤ row.1 k') :
    0 ≤ satRate rows k ∧ satRate rows k ≤ 1 := by
  rw [satRate_eq_spec]
  by_cases hc : 0 < specCnt rows k
  · rw [if_pos hc]
    refine ⟨div_nonneg (specNum_nonneg rows h k) (le_of_lt hc), ?_⟩
    rw [div_le_one hc]
    exact specNum_le_specCnt rows h k
  · rw [if_neg hc]; norm_num

theorem rows_nonneg (db : DB) (h : db.nonneg) :
    ∀ row ∈ list_feedback_with_emotion db, ∀ k, 0 ≤ row.1 k := by
  intro row hrow k
  unfold list_feedback_with_emotion at hrow
  rw [List.mem_filterMap] at hrow
  obtain ⟨f, _, heq⟩ := hrow
  cases hfind : db.generations.find? fun g => g.gid == f.generation_id with
  | none => rw [hfind] at heq; cases heq
  | some g =>
    rw [hfind] at heq
    simp only [Option.map_some'] at heq
    injection heq with heq2
    subst heq2
    exact h g (List.mem_of_find?_eq_some hfind) k

/-! ### Weights stay in the band -/

theorem training_job_bounds (db : DB) (fs : FS) (hdb : db.nonneg)
    (h : ∀ k, 0.9 ≤ weightAt fs k ∧ weightAt fs k ≤ 1.1) :
    ∀ k, 0.9 ≤ weightAt (training_job db fs) k ∧
      weightAt (training_job db fs) k ≤ 1.1 := by
  intro k
  cases he : (list_feedback_with_emotion db).isEmpty with
  | true => rw [training_job_of_empty db fs he]; exact h k
  | false =>
    rw [training_job_weight db fs k he]
    have hr := satRate_bounds (list_feedback_with_emotion db) k
      (rows_nonneg db hdb)
    have hw := h k
    constructor <;> linarith [hr.1, hr.2, hw.1, hw.2]

theorem runAll_bounds (dbs : List DB) (fs : FS)
    (hdb : ∀ db ∈ dbs, db.nonneg)
    (h : ∀ k, 0.9 ≤ weightAt fs k ∧ weightAt fs k ≤ 1.1) :
    ∀ k, 0.9 ≤ weightAt (runAll dbs fs) k ∧
      weightAt (runAll dbs fs) k ≤ 1.1 := by
  induction dbs generalizing fs with
  | nil => exact h
  | cons db dbs ih =>
    exact ih (training_job db fs)
      (fun d hd => hdb d (List.mem_cons_of_mem db hd))
      (training_job_bounds db fs (hdb db (List.mem_cons_self db dbs)) h)

/-! ### The EMA recurrence over repeated runs -/

theorem ema_le (u : ℕ → ℚ) (T : ℚ)
    (hrec : ∀ n, u (n + 1) = 0.8 * u n + 0.2 * T) (h0 : u 0 ≤ T) :
    ∀ n, u n ≤ T ∧ u n ≤ u (n + 1) := by
  have hle : ∀ n, u n ≤ T := by
    intro n
    induction n with
    | zero => exact h0
    | succ n ih => rw [hrec]; linarith
  intro n
  refine ⟨hle n, ?_⟩
  have := hle n
  rw [hrec]
  linarith

theorem ema_ge (u : ℕ → ℚ) (T : ℚ)
    (hrec : ∀ n, u (n + 1) = 0.8 * u n + 0.2 * T) (h0 : T ≤ u 0) :
    ∀ n, T ≤ u n ∧ u (n + 1) ≤ u n := by
  have hge : ∀ n, T ≤ u n := by
    intro n
    induction n with
    | zero => exact h0
    | succ n ih => rw [hrec]; linarith
  intro n
  refine ⟨hge n, ?_⟩
  have := hge n
  rw [hrec]
  linarith

theorem training_job_iter_weight (db : DB) (fs : FS) (k : EmoLabel)
    (hne : (list_feedback_with_emotion db).isEmpty = false) (n : ℕ) :
    weightAt ((training_job db)^[n + 1] fs) k =
      0.8 * weightAt ((training_job db)^[n] fs) k +
        0.2 * (0.9 + 0.2 * satRate (list_feedback_with_emotion db) k) := by
  rw [Function.iterate_succ_apply']
  exact training_job_weight db _ k hne

/-! ### Evaluation of the example scenario -/

theorem rows_dbJoy :
    list_feedback_with_emotion dbJoy = List.replicate 10 (emoJoy, true) := rfl

theorem top2_emoJoy : top2 emoJoy = [(.joy, 1), (.sad, 0)] := rfl

theorem rowNum_emoJoy : rowNum .joy (emoJoy, true) = 1 := by
  norm_num [rowNum, top2_emoJoy, satVal]

theorem rowCnt_emoJoy : rowCnt .joy (emoJoy, true) = 1 := by
  norm_num [rowCnt, top2_emoJoy]

theorem satRate_dbJoy : satRate (list_feedback_with_emotion dbJoy) .joy = 1 := by
  rw [rows_dbJoy, satRate_eq_spec]
  have hnum : specNum (List.replicate 10 (emoJoy, true)) .joy = 10 := by
    norm_num [specNum, List.map_replicate, List.sum_replicate, rowNum_emoJoy,
      smul_eq_mul]
  have hcnt : specCnt (List.replicate 10 (emoJoy, true)) .joy = 10 := by
    norm_num [specCnt, List.map_replicate, List.sum_replicate, rowCnt_emoJoy,
      smul_eq_mul]
  rw [hnum, hcnt, if_pos (by norm_num)]
  norm_num

theorem dbJoy_nonneg : dbJoy.nonneg := by
  intro g hg k
  have hgens : dbJoy.generations = [⟨1, emoJoy⟩] := rfl
  rw [hgens, List.mem_singleton] at hg
  subst hg
  show (0 : ℚ) ≤ emoJoy k
  unfold emoJoy
  split <;> norm_num

theorem top2_length (e : EmoLabel → ℚ) : (top2 e).length = 2 := by
  rw [top2, List.length_take, (sortDesc_perm (emoItems e)).length_eq]
  rfl

/-! ### The join as a filter-then-map -/

theorem filterMap_join (gens : List Generation) (fbs : List Feedback) :
    (fbs.filterMap fun f =>
        (gens.find? fun g => g.gid == f.generation_id).map
          fun g => (g.emo, f.satisfied)) =
      (fbs.filter fun f =>
          (gens.find? fun g => g.gid == f.generation_id).isSome).map
        fun f =>
          (((gens.find? fun g => g.gid == f.generation_id).map
              Generation.emo).getD fun _ => 0, f.satisfied) := by
  induction fbs with
  | nil => rfl
  | cons f fbs ih =>
    cases hfind : gens.find? fun g => g.gid == f.generation_id with
    | none =>
      simp only [List.filterMap_cons, List.filter_cons, hfind,
        Option.map_none', Option.isSome_none, Bool.false_eq_true, if_false, ih]
    | some g =>
      simp only [List.filterMap_cons, List.filter_cons, hfind,
        Option.map_some', Option.isSome_some, if_true, List.map_cons,
        Option.getD_some, ih]

/-! ### Claims -/

/-- C1 counterexample: the claim quantifies over runs "with at least
    one feedback record"; a single feedback record referencing a
    nonexistent generation is such a record, yet the run performs no
    update and no save (the join is empty), so the persisted state is
    untouched and in particular no `save` write happens. -/
theorem training_job_orphan_counterexample :
    dbOrphan.feedback.length = 1 ∧
    training_job dbOrphan fsShift = fsShift ∧
    (training_job dbOrphan fsShift).writes = fsShift.writes :=
  ⟨rfl, rfl, rfl⟩

/-- C1 (amended): for every Tuning Updater run whose
    feedback–generation join yields at least one row, each of the six
    categories' weights is updated as
    `new = alpha * old + (1 - alpha) * (lo + (hi - lo) * rate)` with
    `lo = 0.9`, `hi = 1.1`, `alpha = 0.8`, and the resulting mapping is
    persisted via save (one write to the tuning file). -/
theorem training_job_updates_and_saves (db : DB) (fs : FS) (t : TuningMap)
    (ht : fs.tuning = some t)
    (hne : (list_feedback_with_emotion db).isEmpty = false) :
    (training_job db fs).writes = fs.writes + 1 ∧
    (∃ u, (training_job db fs).tuning = some u) ∧
    ∀ k, weightAt (training_job db fs) k =
      0.8 * weightAt fs k +
        (1 - 0.8) *
          (0.9 + (1.1 - 0.9) * satRate (list_feedback_with_emotion db) k) := by
  have hrun := training_job_some db fs t ht hne
  refine ⟨?_, ?_, ?_⟩
  · rw [hrun]
  · exact ⟨_, by rw [hrun]⟩
  · intro k
    rw [training_job_weight db fs k hne]
    norm_num

/-- Witness for the amended C1 at the concrete joy scenario. -/
theorem training_job_updates_and_saves_witness :
    fsInit.tuning = some initTuning ∧
    (list_feedback_with_emotion dbJoy).isEmpty = false ∧
    ((training_job dbJoy fsInit).writes = fsInit.writes + 1 ∧
      (∃ u, (training_job dbJoy fsInit).tuning = some u) ∧
      ∀ k, weightAt (training_job dbJoy fsInit) k =
        0.8 * weightAt fsInit k +
          (1 - 0.8) *
            (0.9 + (1.1 - 0.9) *
              satRate (list_feedback_with_emotion dbJoy) k)) :=
  ⟨rfl, rfl, training_job_updates_and_saves dbJoy fsInit initTuning rfl rfl⟩

/-- C2: the per-category satisfaction rate follows the weighted top-k
    policy: only the 2 highest-scoring categories of each row's score
    vector contribute, accumulating `score * satisfied` into a numerator
    and `score` into a denominator across all feedback; the rate is
    numerator/denominator, and a category with zero denominator gets rate
    0.5. The sort used to pick the top 2 is a permutation of the score
    items sorted by descending score, and exactly 2 entries are kept. -/
theorem satRate_weighted_top2_policy :
    (∀ rows k, satRate rows k =
        if 0 < specCnt rows k then specNum rows k / specCnt rows k
        else 1/2) ∧
    (∀ e : EmoLabel → ℚ,
        List.Perm (sortDesc (emoItems e)) (emoItems e) ∧
        (sortDesc (emoItems e)).Sorted (fun p q => q.2 ≤ p.2) ∧
        (top2 e).length = 2) :=
  ⟨satRate_eq_spec,
   fun e => ⟨sortDesc_perm _, sortDesc_sorted _, top2_length e⟩⟩

/-- C3: with a constant satisfaction rate `r` for category `k`, the
    weight moves monotonically toward `0.9 + 0.2 * r` without
    overshooting; with `r = 1` and weight below 1.1, one run strictly
    increases the weight but not above 1.1; with `r = 0` and weight above
    0.9, one run strictly decreases it but not below 0.9. -/
theorem training_job_ema_convergence (db : DB) (fs : FS) (k : EmoLabel)
    (r : ℚ)
    (hne : (list_feedback_with_emotion db).isEmpty = false)
    (hr : satRate (list_feedback_with_emotion db) k = r) :
    (weightAt fs k ≤ 0.9 + 0.2 * r →
      ∀ n, weightAt ((training_job db)^[n] fs) k ≤ 0.9 + 0.2 * r ∧
        weightAt ((training_job db)^[n] fs) k ≤
          weightAt ((training_job db)^[n + 1] fs) k) ∧
    (0.9 + 0.2 * r ≤ weightAt fs k →
      ∀ n, 0.9 + 0.2 * r ≤ weightAt ((training_job db)^[n] fs) k ∧
        weightAt ((training_job db)^[n + 1] fs) k ≤
          weightAt ((training_job db)^[n] fs) k) ∧
    (r = 1 → weightAt fs k < 1.1 →
      weightAt fs k < weightAt (training_job db fs) k ∧
        weightAt (training_job db fs) k ≤ 1.1) ∧
    (r = 0 → 0.9 < weightAt fs k →
      weightAt (training_job db fs) k < weightAt fs k ∧
        0.9 ≤ weightAt (training_job db fs) k) := by
  have hrec : ∀ n, weightAt ((training_job db)^[n + 1] fs) k =
      0.8 * weightAt ((training_job db)^[n] fs) k +
        0.2 * (0.9 + 0.2 * r) := by
    intro n
    rw [training_job_iter_weight db fs k hne n, hr]
  have h0 : weightAt ((training_job db)^[0] fs) k = weightAt fs k := rfl
  have h1 : weightAt ((training_job db)^[1] fs) k =
      weightAt (training_job db fs) k := rfl
  have e1 := hrec 0
  rw [h0, h1] at e1
  refine ⟨?_, ?_, ?_, ?_⟩
  · intro hle n
    exact ema_le (fun n => weightAt ((training_job db)^[n] fs) k)
      (0.9 + 0.2 * r) hrec (by simpa using hle) n
  · intro hge n
    exact ema_ge (fun n => weightAt ((training_job db)^[n] fs) k)
      (0.9 + 0.2 * r) hrec (by simpa using hge) n
  · intro hr1 hlt
    rw [hr1] at e1
    constructor
    · rw [e1]; linarith
    · rw [e1]; linarith
  · intro hr0 hgt
    rw [hr0] at e1
    constructor
    · rw [e1]; linarith
    · rw [e1]; linarith

/-- Witness for C3 at the concrete joy scenario (`r = 1`). -/
theorem training_job_ema_convergence_witness :
    (list_feedback_with_emotion dbJoy).isEmpty = false ∧
    satRate (list_feedback_with_emotion dbJoy) .joy = 1 ∧
    ((weightAt fsInit .joy ≤ 0.9 + 0.2 * 1 →
      ∀ n, weightAt ((training_job dbJoy)^[n] fsInit) .joy ≤ 0.9 + 0.2 * 1 ∧
        weightAt ((training_job dbJoy)^[n] fsInit) .joy ≤
          weightAt ((training_job dbJoy)^[n + 1] fsInit) .joy) ∧
    (0.9 + 0.2 * 1 ≤ weightAt fsInit .joy →
      ∀ n, 0.9 + 0.2 * 1 ≤ weightAt ((training_job dbJoy)^[n] fsInit) .joy ∧
        weightAt ((training_job dbJoy)^[n + 1] fsInit) .joy ≤
          weightAt ((training_job dbJoy)^[n] fsInit) .joy) ∧
    ((1 : ℚ) = 1 → weightAt fsInit .joy < 1.1 →
      weightAt fsInit .joy < weightAt (training_job dbJoy fsInit) .joy ∧
        weightAt (training_job dbJoy fsInit) .joy ≤ 1.1) ∧
    ((1 : ℚ) = 0 → 0.9 < weightAt fsInit .joy →
      weightAt (training_job dbJoy fsInit) .joy < weightAt fsInit .joy ∧
        0.9 ≤ weightAt (training_job dbJoy fsInit) .joy)) :=
  ⟨rfl, satRate_dbJoy,
   training_job_ema_convergence dbJoy fsInit .joy 1 rfl satRate_dbJoy⟩

/-- C4: with all weights initially 1.0 and ten satisfied feedback
    events all attributed to 기쁨 (joy), one run brings the joy weight to
    `0.8 * 1.0 + 0.2 * 1.1 = 1.02` and a second run over the same stored
    feedback brings it to `0.8 * 1.02 + 0.2 * 1.1 = 1.036`. -/
theorem training_job_example_scenario :
    weightAt (training_job dbJoy fsInit) .joy = 1.02 ∧
    weightAt (training_job dbJoy (training_job dbJoy fsInit)) .joy = 1.036 := by
  have hne : (list_feedback_with_emotion dbJoy).isEmpty = false := rfl
  have h1 := training_job_weight dbJoy fsInit .joy hne
  rw [satRate_dbJoy] at h1
  have hw0 : weightAt fsInit .joy = 1 := rfl
  have hw1 : weightAt (training_job dbJoy fsInit) .joy = 1.02 := by
    rw [h1, hw0]; norm_num
  refine ⟨hw1, ?_⟩
  have h2 := training_job_weight dbJoy (training_job dbJoy fsInit) .joy hne
  rw [satRate_dbJoy, hw1] at h2
  rw [h2]; norm_num

/-- C5: with zero feedback records in the event store, an Updater run
    is a no-op: the whole state (stored tuning dict and write count) is
    returned unchanged. -/
theorem training_job_no_feedback_noop (db : DB) (fs : FS)
    (h : db.feedback = []) : training_job db fs = fs := by
  apply training_job_of_empty
  unfold list_feedback_with_emotion
  rw [h]
  rfl

/-- Witness for C5: a store with one generation and no feedback. -/
theorem training_job_no_feedback_noop_witness :
    dbNoFeedback.feedback = [] ∧
    training_job dbNoFeedback fsShift = fsShift :=
  ⟨rfl, training_job_no_feedback_noop dbNoFeedback fsShift rfl⟩

/-- C6 counterexample: a feedback record whose `generation_id`
    matches no generation yields no entry at all in
    `list_feedback_with_emotion` (the SQL inner join drops it), so the
    claimed "exactly one entry per stored feedback record, including
    orphans" fails: one feedback record, zero entries. -/
theorem list_feedback_orphan_counterexample :
    dbOrphan.feedback.length = 1 ∧
    (list_feedback_with_emotion dbOrphan).length = 0 :=
  ⟨rfl, rfl⟩

/-- C6 (amended): for every sequence of store calls,
    `list_feedback_with_emotion` returns exactly one entry per stored
    feedback record whose referenced generation exists, pairing that
    feedback's satisfaction flag with the referenced generation's emotion
    data; feedback referencing a missing generation contributes no
    entry. -/
theorem list_feedback_with_emotion_join (ops : List Op) :
    list_feedback_with_emotion (runOps ops) =
      ((runOps ops).feedback.filter fun f =>
          ((runOps ops).generations.find? fun g =>
              g.gid == f.generation_id).isSome).map
        fun f => (emoOf (runOps ops) f.generation_id, f.satisfied) :=
  filterMap_join (runOps ops).generations (runOps ops).feedback

/-- C7: `load()` before any save returns all six categories at weight
    1.0, persists that dict (one initialization write), and a second
    `load()` returns the same dict without touching the state again. -/
theorem load_tuning_first_init (fs : FS) (h : fs.tuning = none) :
    (load_tuning fs).1 = initTuning ∧
    dictKeys initTuning = EMO_LABELS ∧
    (∀ k, dictGet initTuning k 1 = 1) ∧
    (load_tuning fs).2 = ⟨some initTuning, fs.writes + 1⟩ ∧
    load_tuning (load_tuning fs).2 =
      ((load_tuning fs).1, (load_tuning fs).2) := by
  have h1 : load_tuning fs = (initTuning, ⟨some initTuning, fs.writes + 1⟩) := by
    unfold load_tuning
    rw [h]
  rw [h1]
  exact ⟨rfl, rfl, fun k => dictGet_initTuning k, rfl, rfl⟩

/-- Witness for C7 at the empty filesystem. -/
theorem load_tuning_first_init_witness :
    (FS.mk none 0).tuning = none ∧
    ((load_tuning ⟨none, 0⟩).1 = initTuning ∧
      dictKeys initTuning = EMO_LABELS ∧
      (∀ k, dictGet initTuning k 1 = 1) ∧
      (load_tuning ⟨none, 0⟩).2 = ⟨some initTuning, 1⟩ ∧
      load_tuning (load_tuning ⟨none, 0⟩).2 =
        ((load_tuning ⟨none, 0⟩).1, (load_tuning ⟨none, 0⟩).2)) :=
  ⟨rfl, load_tuning_first_init ⟨none, 0⟩ rfl⟩

/-- C8: every reachable persisted tuning dict — the one written at
    first load and every one written by an Updater run — has exactly the
    six known categories as its keys. -/
theorem reachable_tuning_keys (t : TuningMap) (h : ReachableTuning t) :
    dictKeys t = EMO_LABELS := by
  induction h with
  | init => rfl
  | step db t' u n ht hsave ih =>
    cases he : (list_feedback_with_emotion db).isEmpty with
    | true =>
      rw [training_job_of_empty db _ he] at hsave
      have h2 : t' = u := Option.some_inj.mp hsave
      exact h2 ▸ ih
    | false =>
      rw [training_job_some db ⟨some t', n⟩ t' rfl he] at hsave
      have h2 := Option.some_inj.mp hsave
      rw [← h2]
      have h3 := dictKeys_foldl_dictSet
        (fun k v =>
          0.8 * v + 0.2 * (0.9 + 0.2 * satRate (list_feedback_with_emotion db) k))
        EMO_LABELS t' (fun k hk => by rw [ih]; exact hk)
      exact h3.trans ih

/-- Witness for C8 at the initial dict. -/
theorem reachable_tuning_keys_witness :
    ReachableTuning initTuning ∧ dictKeys initTuning = EMO_LABELS :=
  ⟨ReachableTuning.init,
   reachable_tuning_keys initTuning ReachableTuning.init⟩

/-- C9: starting from the initial all-1.0 state, after any number of
    Updater runs over any stores holding nonnegative emotion scores,
    every category's weight lies within [0.9, 1.1], with no explicit
    clamping in the update rule. -/
theorem runAll_weights_in_band (dbs : List DB) (w : Nat)
    (hdb : ∀ db ∈ dbs, db.nonneg) (k : EmoLabel) :
    0.9 ≤ weightAt (runAll dbs ⟨some initTuning, w⟩) k ∧
      weightAt (runAll dbs ⟨some initTuning, w⟩) k ≤ 1.1 :=
  runAll_bounds dbs ⟨some initTuning, w⟩ hdb
    (fun k' => by rw [weightAt_some, dictGet_initTuning]; norm_num) k

/-- Witness for C9: one run over the concrete joy store. -/
theorem runAll_weights_in_band_witness :
    (∀ db ∈ [dbJoy], db.nonneg) ∧
    (0.9 ≤ weightAt (runAll [dbJoy] ⟨some initTuning, 0⟩) .joy ∧
      weightAt (runAll [dbJoy] ⟨some initTuning, 0⟩) .joy ≤ 1.1) :=
  ⟨fun db hdb => by rw [List.mem_singleton] at hdb; exact hdb ▸ dbJoy_nonneg,
   runAll_weights_in_band [dbJoy] 0
     (fun db hdb => by
       rw [List.mem_singleton] at hdb; exact hdb ▸ dbJoy_nonneg) .joy⟩

end Calligraphy
